import Mathlib

/-!
Verification of the FRI prover core (`risc0/zkp/src/prove/fri.rs`).

The development shallowly embeds `ProveRoundInfo::new`, `ProveRoundInfo::prove_query`
and `fri_prove`.  Field elements are abstracted as `Nat` (no claim depends on field
arithmetic); the hardware-abstraction-layer (HAL) kernels, the hash function, the
Merkle commitment and the transcript random generator are abstract function
parameters collected in `FriCtx`, constrained only by the buffer-length contract of
the HAL (in-place batched operations never resize their destination buffer).
The transcript is modelled as the chronological list of operations performed on it.
-/

namespace Fri

/-- Operations performed on the Fiat-Shamir transcript, in chronological order:
Merkle-root commitments, challenge draws from the embedded generator, raw
field-element writes, digest commitments, 32-bit draws, and Merkle openings. -/
inductive TOp where
  | commitRoot (root : Nat)
  | drawExt (x : Nat)
  | writeElems (xs : List Nat)
  | commitDigest (d : Nat)
  | drawU32 (v : Nat)
  | merkleOpen (group : Nat)
  deriving DecidableEq

/-- Does this transcript operation draw pseudorandomness from the embedded
generator (a challenge draw)? -/
def TOp.isDraw : TOp → Bool
  | TOp.drawExt _ => true
  | TOp.drawU32 _ => true
  | _ => false

/-- Is this transcript operation a 32-bit draw from the embedded generator? -/
def TOp.isDrawU32 : TOp → Bool
  | TOp.drawU32 _ => true
  | _ => false

/-- Is this transcript operation a Merkle opening? -/
def TOp.isMerkleOpen : TOp → Bool
  | TOp.merkleOpen _ => true
  | _ => false

/-- Modelled from the spec: the transcript capability (`WriteIOP`, whose source is
not under `src/`).  `trace` is the chronological list of operations performed on
the transcript and `rng` the state of the embedded deterministic generator. -/
structure Iop where
  trace : List TOp
  rng : Nat
  deriving DecidableEq

/-- Protocol constants together with the abstract external capabilities
(HAL kernels, hash, Merkle root, generator) consumed by the FRI prover.
The length facts record the HAL contract that in-place batched operations
never resize their destination buffer. -/
structure FriCtx where
  EXT_SIZE : Nat
  INV_RATE : Nat
  FRI_FOLD : Nat
  FRI_MIN_DEGREE : Nat
  QUERIES : Nat
  batch_expand : List Nat → List Nat → Nat → List Nat
  batch_evaluate_ntt : List Nat → Nat → Nat → List Nat
  fri_fold : List Nat → List Nat → Nat → List Nat
  eltwise_copy_elem : List Nat → List Nat → List Nat
  batch_bit_reverse : List Nat → Nat → List Nat
  hash_raw_pod_slice : List Nat → Nat
  merkle_root : List Nat → Nat → Nat → Nat → Nat
  rngNextExt : Nat → Nat × Nat
  rngNextU32 : Nat → Nat × Nat
  rngMix : Nat → Nat → Nat
  ext_size_pos : 0 < EXT_SIZE
  fri_fold_two : 2 ≤ FRI_FOLD
  inv_rate_pos : 0 < INV_RATE
  batch_expand_length : ∀ d s e, (batch_expand d s e).length = d.length
  batch_evaluate_ntt_length : ∀ d e r, (batch_evaluate_ntt d e r).length = d.length
  fri_fold_length : ∀ d s m, (fri_fold d s m).length = d.length
  eltwise_copy_elem_length : ∀ d s, (eltwise_copy_elem d s).length = d.length
  batch_bit_reverse_length : ∀ d e, (batch_bit_reverse d e).length = d.length

/-- Ceiling of the base-2 logarithm (`core::log2_ceil`), used only as an opaque
argument to the abstract NTT kernel. -/
def log2_ceil (n : Nat) : Nat := Nat.clog 2 n

/-- Appending a slice of raw field elements to the transcript
(`WriteIOP::write_field_elem_slice`; modelled from the spec's transcript contract). -/
def Iop.write_field_elem_slice (iop : Iop) (xs : List Nat) : Iop :=
  ⟨iop.trace ++ [TOp.writeElems xs], iop.rng⟩

/-- Committing a digest to the transcript (`WriteIOP::commit`; modelled from the
spec: the digest is appended and mixed into the embedded generator state). -/
def Iop.commit (ctx : FriCtx) (iop : Iop) (d : Nat) : Iop :=
  ⟨iop.trace ++ [TOp.commitDigest d], ctx.rngMix d iop.rng⟩

/-- Drawing one pseudorandom extension-field element from the transcript's
embedded generator (`ExtElem::random(&mut iop.rng)`; modelled from the spec). -/
def Iop.draw_ext (ctx : FriCtx) (iop : Iop) : Nat × Iop :=
  let p := ctx.rngNextExt iop.rng
  (p.1, ⟨iop.trace ++ [TOp.drawExt p.1], p.2⟩)

/-- Drawing one pseudorandom 32-bit value from the transcript's embedded
generator (`iop.rng.next_u32()`; modelled from the spec). -/
def Iop.draw_u32 (ctx : FriCtx) (iop : Iop) : Nat × Iop :=
  let p := ctx.rngNextU32 iop.rng
  (p.1, ⟨iop.trace ++ [TOp.drawU32 p.1], p.2⟩)

/-- Modelled from the spec: the Merkle commitment capability
(`MerkleTreeProver`, whose source is not under `src/`): a tree built over
`evals` with `rows` leaf groups of `cols` elements, supporting `queries` openings. -/
structure MerkleTreeProver where
  evals : List Nat
  rows : Nat
  cols : Nat
  queries : Nat
  deriving DecidableEq

/-- Modelled from the spec: `MerkleTreeProver::commit` appends the Merkle root to
the transcript, which binds it into the embedded generator state. -/
def MerkleTreeProver.commit (ctx : FriCtx) (m : MerkleTreeProver) (iop : Iop) : Iop :=
  let r := ctx.merkle_root m.evals m.rows m.cols m.queries
  ⟨iop.trace ++ [TOp.commitRoot r], ctx.rngMix r iop.rng⟩

/-- Modelled from the spec: `MerkleTreeProver::prove` appends the opening proof
for one leaf group to the transcript. -/
def MerkleTreeProver.prove (m : MerkleTreeProver) (iop : Iop) (idx : Nat) : Iop :=
  ⟨iop.trace ++ [TOp.merkleOpen idx], iop.rng⟩

/-- One retained round state of the FRI prover (`ProveRoundInfo` in `fri.rs`):
the pre-fold evaluation domain, the folded coefficient buffer handed to the next
round, and the Merkle tree committing to this round's evaluations. -/
structure ProveRoundInfo where
  domain : Nat
  coeffs : List Nat
  merkle : MerkleTreeProver
  deriving DecidableEq

/-- One round of the folding protocol (`ProveRoundInfo::new` in `fri.rs`):
expand, evaluate, commit the evaluations, draw the fold-mix challenge, fold. -/
def ProveRoundInfo.new (ctx : FriCtx) (iop : Iop) (coeffs : List Nat) :
    Iop × ProveRoundInfo :=
  let ext_size := ctx.EXT_SIZE
  let size := coeffs.length / ext_size
  let domain := size * ctx.INV_RATE
  let evaluated := List.replicate (domain * ext_size) (0 : Nat)
  let evaluated := ctx.batch_expand evaluated coeffs ext_size
  let evaluated := ctx.batch_evaluate_ntt evaluated ext_size (log2_ceil ctx.INV_RATE)
  let merkle : MerkleTreeProver :=
    ⟨evaluated, domain / ctx.FRI_FOLD, ctx.FRI_FOLD * ext_size, ctx.QUERIES⟩
  let iop := merkle.commit ctx iop
  let fm := Iop.draw_ext ctx iop
  let fold_mix := fm.1
  let iop := fm.2
  let out_coeffs := List.replicate (size / ctx.FRI_FOLD * ext_size) (0 : Nat)
  let out_coeffs := ctx.fri_fold out_coeffs coeffs fold_mix
  (iop, ⟨domain, out_coeffs, merkle⟩)

/-- The per-round query step (`ProveRoundInfo::prove_query` in `fri.rs`):
reduce the position to its leaf group, open that group, return the reduced
position for the next round. -/
def ProveRoundInfo.prove_query (ctx : FriCtx) (self : ProveRoundInfo) (iop : Iop)
    (pos : Nat) : Iop × Nat :=
  let group := pos % (self.domain / ctx.FRI_FOLD)
  let iop := self.merkle.prove iop group
  (iop, group)

/-- The folding loop of `fri_prove`, with explicit fuel: while the
per-extension-element coefficient count exceeds `FRI_MIN_DEGREE`, run one round
and retain its state.  `none` is returned only on fuel exhaustion; the
development proves fuel `coeffs.length / EXT_SIZE` always suffices. -/
def friLoop (ctx : FriCtx) (fuel : Nat) (iop : Iop) (coeffs : List Nat)
    (rounds : List ProveRoundInfo) : Option (Iop × List Nat × List ProveRoundInfo) :=
  match fuel with
  | 0 =>
    if ctx.FRI_MIN_DEGREE < coeffs.length / ctx.EXT_SIZE then none
    else some (iop, coeffs, rounds)
  | Nat.succ fuel =>
    if ctx.FRI_MIN_DEGREE < coeffs.length / ctx.EXT_SIZE then
      let r := ProveRoundInfo.new ctx iop coeffs
      friLoop ctx fuel r.1 r.2.coeffs (rounds ++ [r.2])
    else some (iop, coeffs, rounds)

/-- The folding loop run with sufficient fuel (the default branch is never
taken, as proved below). -/
def friLoopRun (ctx : FriCtx) (iop : Iop) (coeffs : List Nat) :
    Iop × List Nat × List ProveRoundInfo :=
  (friLoop ctx (coeffs.length / ctx.EXT_SIZE) iop coeffs []).getD (iop, coeffs, [])

/-- Thread one query position through the retained rounds in creation order
(the inner `for round in rounds.iter_mut()` loop of `fri_prove`), returning the
transcript and the final reduced position. -/
def proveQueryRounds (ctx : FriCtx) : List ProveRoundInfo → Iop → Nat → Iop × Nat
  | [], iop, pos => (iop, pos)
  | r :: rs, iop, pos =>
    let q := r.prove_query ctx iop pos
    proveQueryRounds ctx rs q.1 q.2

/-- The successive leaf groups opened when a position is threaded through the
rounds in creation order. -/
def posGroups (ctx : FriCtx) : List ProveRoundInfo → Nat → List Nat
  | [], _ => []
  | r :: rs, pos =>
    let g := pos % (r.domain / ctx.FRI_FOLD)
    g :: posGroups ctx rs g

/-- One iteration of the query loop of `fri_prove`: draw a 32-bit value, reduce
it modulo the original domain, invoke the caller-supplied callback at that
position, then open each retained round in creation order. -/
def queryIter (ctx : FriCtx) (f : Iop → Nat → Iop) (orig_domain : Nat)
    (rounds : List ProveRoundInfo) (iop : Iop) : Iop :=
  let d := Iop.draw_u32 ctx iop
  let pos := d.1 % orig_domain
  let iop := f d.2 pos
  (proveQueryRounds ctx rounds iop pos).1

/-- The query phase of `fri_prove`: `QUERIES` independent iterations in order. -/
def queryPhase (ctx : FriCtx) (f : Iop → Nat → Iop) (orig_domain : Nat)
    (rounds : List ProveRoundInfo) : Nat → Iop → Iop
  | 0, iop => iop
  | Nat.succ q, iop => queryPhase ctx f orig_domain rounds q (queryIter ctx f orig_domain rounds iop)

/-- The observable result of `fri_prove`: the final transcript, the retained
round states, and the terminal coefficient buffer revealed in natural order. -/
structure FriOut where
  iop : Iop
  rounds : List ProveRoundInfo
  final_coeffs : List Nat

/-- The FRI prover orchestrator (`fri_prove` in `fri.rs`): repeated folding,
terminal reveal (copy, bit-reverse to natural order, append raw values, hash,
commit the digest), then the query phase. -/
def fri_prove (ctx : FriCtx) (f : Iop → Nat → Iop) (iop : Iop) (coeffs : List Nat) :
    FriOut :=
  let ext_size := ctx.EXT_SIZE
  let orig_domain := coeffs.length / ext_size * ctx.INV_RATE
  let lp := friLoopRun ctx iop coeffs
  let iop := lp.1
  let coeffs := lp.2.1
  let rounds := lp.2.2
  let final_coeffs := List.replicate coeffs.length (0 : Nat)
  let final_coeffs := ctx.eltwise_copy_elem final_coeffs coeffs
  let final_coeffs := ctx.batch_bit_reverse final_coeffs ext_size
  let iop := iop.write_field_elem_slice final_coeffs
  let digest := ctx.hash_raw_pod_slice final_coeffs
  let iop := Iop.commit ctx iop digest
  let iop := queryPhase ctx f orig_domain rounds ctx.QUERIES iop
  ⟨iop, rounds, final_coeffs⟩

/-- The round count described by the spec's own words, with explicit fuel: the
number of times `n` can be integer-divided by `fold` before the result is at or
below `minDeg`. -/
def specRoundCountAux (fuel n fold minDeg : Nat) : Nat :=
  match fuel with
  | 0 => 0
  | Nat.succ fuel =>
    if minDeg < n then specRoundCountAux fuel (n / fold) fold minDeg + 1 else 0

/-- The round count described by the spec's own words (fuel `n` suffices since
the count is at most `n`). -/
def specRoundCount (n fold minDeg : Nat) : Nat :=
  specRoundCountAux n n fold minDeg

/-- The evaluation buffer committed by one round. -/
def roundEvals (ctx : FriCtx) (c : List Nat) : List Nat :=
  ctx.batch_evaluate_ntt
    (ctx.batch_expand
      (List.replicate (c.length / ctx.EXT_SIZE * ctx.INV_RATE * ctx.EXT_SIZE) (0 : Nat))
      c ctx.EXT_SIZE)
    ctx.EXT_SIZE (log2_ceil ctx.INV_RATE)

/-- The Merkle root committed by one round. -/
def roundRoot (ctx : FriCtx) (c : List Nat) : Nat :=
  ctx.merkle_root (roundEvals ctx c)
    (c.length / ctx.EXT_SIZE * ctx.INV_RATE / ctx.FRI_FOLD)
    (ctx.FRI_FOLD * ctx.EXT_SIZE) ctx.QUERIES

/-- The fold-mix challenge drawn by one round: the generator is advanced by the
root commitment before the draw. -/
def roundMix (ctx : FriCtx) (iop : Iop) (c : List Nat) : Nat :=
  (ctx.rngNextExt (ctx.rngMix (roundRoot ctx c) iop.rng)).1

lemma new_snd_domain (ctx : FriCtx) (iop : Iop) (c : List Nat) :
    ((ProveRoundInfo.new ctx iop c).2).domain = c.length / ctx.EXT_SIZE * ctx.INV_RATE := rfl

lemma new_snd_rows (ctx : FriCtx) (iop : Iop) (c : List Nat) :
    ((ProveRoundInfo.new ctx iop c).2).merkle.rows
      = c.length / ctx.EXT_SIZE * ctx.INV_RATE / ctx.FRI_FOLD := rfl

lemma new_snd_coeffs_length (ctx : FriCtx) (iop : Iop) (c : List Nat) :
    ((ProveRoundInfo.new ctx iop c).2).coeffs.length
      = c.length / ctx.EXT_SIZE / ctx.FRI_FOLD * ctx.EXT_SIZE := by
  simp [ProveRoundInfo.new, ctx.fri_fold_length]

lemma new_fst_trace (ctx : FriCtx) (iop : Iop) (c : List Nat) :
    (ProveRoundInfo.new ctx iop c).1.trace
      = iop.trace ++ [TOp.commitRoot (roundRoot ctx c), TOp.drawExt (roundMix ctx iop c)] := by
  simp [ProveRoundInfo.new, MerkleTreeProver.commit, Iop.draw_ext, roundRoot, roundEvals,
    roundMix]

lemma div_pow_succ (s fold j : Nat) : s / fold / fold ^ j = s / fold ^ (j + 1) := by
  rw [Nat.div_div_eq_div_mul, ← pow_succ']

lemma new_size_step (ctx : FriCtx) (iop : Iop) (c : List Nat) :
    ((ProveRoundInfo.new ctx iop c).2).coeffs.length / ctx.EXT_SIZE
      = c.length / ctx.EXT_SIZE / ctx.FRI_FOLD := by
  rw [new_snd_coeffs_length, Nat.mul_div_cancel _ ctx.ext_size_pos]

lemma friLoop_isSome (ctx : FriCtx) :
    ∀ (fuel : Nat) (iop : Iop) (c : List Nat) (acc : List ProveRoundInfo),
      c.length / ctx.EXT_SIZE ≤ fuel + ctx.FRI_MIN_DEGREE →
      (friLoop ctx fuel iop c acc).isSome := by
  intro fuel
  induction fuel with
  | zero =>
    intro iop c acc h
    simp only [friLoop]
    rw [if_neg (by omega)]
    rfl
  | succ fuel ih =>
    intro iop c acc h
    simp only [friLoop]
    by_cases hc : ctx.FRI_MIN_DEGREE < c.length / ctx.EXT_SIZE
    · rw [if_pos hc]
      apply ih
      rw [new_size_step]
      have hfold := ctx.fri_fold_two
      have hdiv : c.length / ctx.EXT_SIZE / ctx.FRI_FOLD < c.length / ctx.EXT_SIZE :=
        Nat.div_lt_self (by omega) (by omega)
      omega
    · rw [if_neg hc]
      rfl

lemma friLoop_eq_run (ctx : FriCtx) (iop : Iop) (c : List Nat) :
    friLoop ctx (c.length / ctx.EXT_SIZE) iop c [] = some (friLoopRun ctx iop c) := by
  have h := friLoop_isSome ctx (c.length / ctx.EXT_SIZE) iop c [] (Nat.le_add_right _ _)
  rcases hopt : friLoop ctx (c.length / ctx.EXT_SIZE) iop c [] with _ | t
  · rw [hopt] at h
    simp at h
  · rw [friLoopRun, hopt]
    rfl

/-- The rounds produced from a buffer of per-extension size `s` follow the
geometric law: round `j` has domain `s / FOLD^j * INV_RATE`, a Merkle tree of
`domain / FOLD` rows, a folded buffer of `s / FOLD^(j+1)` extension elements,
and was only created because `s / FOLD^j` still exceeded the threshold. -/
def RoundsGeo (ctx : FriCtx) (s : Nat) (l : List ProveRoundInfo) : Prop :=
  ∀ j (h : j < l.length),
    (l.get ⟨j, h⟩).domain = s / ctx.FRI_FOLD ^ j * ctx.INV_RATE ∧
    (l.get ⟨j, h⟩).merkle.rows = s / ctx.FRI_FOLD ^ j * ctx.INV_RATE / ctx.FRI_FOLD ∧
    (l.get ⟨j, h⟩).coeffs.length = s / ctx.FRI_FOLD ^ (j + 1) * ctx.EXT_SIZE ∧
    ctx.FRI_MIN_DEGREE < s / ctx.FRI_FOLD ^ j

lemma friLoop_spec (ctx : FriCtx) :
    ∀ (fuel : Nat) (iop : Iop) (c : List Nat) (acc : List ProveRoundInfo)
      (iop2 : Iop) (c2 : List Nat) (rs : List ProveRoundInfo),
      friLoop ctx fuel iop c acc = some (iop2, c2, rs) →
      ∃ l, rs = acc ++ l ∧ RoundsGeo ctx (c.length / ctx.EXT_SIZE) l ∧
        c2.length / ctx.EXT_SIZE = c.length / ctx.EXT_SIZE / ctx.FRI_FOLD ^ l.length ∧
        c2.length / ctx.EXT_SIZE ≤ ctx.FRI_MIN_DEGREE ∧
        (l = [] → c2 = c) ∧
        (l ≠ [] → c2.length = c.length / ctx.EXT_SIZE / ctx.FRI_FOLD ^ l.length * ctx.EXT_SIZE) := by
  intro fuel
  induction fuel with
  | zero =>
    intro iop c acc iop2 c2 rs h
    simp only [friLoop] at h
    by_cases hc : ctx.FRI_MIN_DEGREE < c.length / ctx.EXT_SIZE
    · rw [if_pos hc] at h
      exact absurd h (by simp)
    · rw [if_neg hc] at h
      injection h with h
      injection h with h1 h
      injection h with h2 h3
      refine ⟨[], by simp [← h3], ?_, ?_, ?_, ?_, ?_⟩
      · intro j hj
        exact absurd hj (by simp)
      · simp [← h2]
      · simp [← h2]
        omega
      · intro _
        exact h2.symm
      · intro hne
        exact absurd rfl hne
  | succ fuel ih =>
    intro iop c acc iop2 c2 rs h
    simp only [friLoop] at h
    by_cases hc : ctx.FRI_MIN_DEGREE < c.length / ctx.EXT_SIZE
    · rw [if_pos hc] at h
      obtain ⟨l, hrs, hgeo, hsz, hle, hnil, hlen⟩ := ih _ _ _ _ _ _ h
      have hstep := new_size_step ctx iop c
      refine ⟨(ProveRoundInfo.new ctx iop c).2 :: l, by simp [hrs], ?_, ?_, ?_, ?_, ?_⟩
      · intro j hj
        cases j with
        | zero =>
          simp only [List.get]
          refine ⟨?_, ?_, ?_, ?_⟩
          · simp [new_snd_domain]
          · simp [new_snd_rows]
          · simp [new_snd_coeffs_length]
          · simpa using hc
        | succ j =>
          have hj2 : j < l.length := by simpa using hj
          obtain ⟨h1, h2, h3, h4⟩ := hgeo j hj2
          rw [hstep] at h1 h2 h3 h4
          rw [div_pow_succ] at h1 h2 h4
          rw [div_pow_succ] at h3
          exact ⟨by simpa using h1, by simpa using h2, by simpa using h3, by simpa using h4⟩
      · rw [hsz, hstep, div_pow_succ]
        simp [List.length_cons]
      · exact hle
      · intro hco
        exact absurd hco (by simp)
      · intro _
        rcases List.eq_nil_or_concat l with hl | hl
        · subst hl
          have hc2 : c2 = (ProveRoundInfo.new ctx iop c).2.coeffs := hnil rfl
          rw [hc2, new_snd_coeffs_length]
          simp
        · have hlne : l ≠ [] := by
            rcases hl with ⟨ys, a, rfl⟩
            simp
          rw [hlen hlne, hstep, div_pow_succ]
          simp [List.length_cons]
    · rw [if_neg hc] at h
      injection h with h
      injection h with h1 h
      injection h with h2 h3
      refine ⟨[], by simp [← h3], ?_, ?_, ?_, ?_, ?_⟩
      · intro j hj
        exact absurd hj (by simp)
      · simp [← h2]
      · simp [← h2]
        omega
      · intro _
        exact h2.symm
      · intro hne
        exact absurd rfl hne

lemma friLoop_length (ctx : FriCtx) :
    ∀ (fuel : Nat) (iop : Iop) (c : List Nat) (acc : List ProveRoundInfo)
      (iop2 : Iop) (c2 : List Nat) (rs : List ProveRoundInfo),
      friLoop ctx fuel iop c acc = some (iop2, c2, rs) →
      rs.length = acc.length
        + specRoundCountAux fuel (c.length / ctx.EXT_SIZE) ctx.FRI_FOLD ctx.FRI_MIN_DEGREE := by
  intro fuel
  induction fuel with
  | zero =>
    intro iop c acc iop2 c2 rs h
    simp only [friLoop] at h
    by_cases hc : ctx.FRI_MIN_DEGREE < c.length / ctx.EXT_SIZE
    · rw [if_pos hc] at h
      exact absurd h (by simp)
    · rw [if_neg hc] at h
      injection h with h
      injection h with h1 h
      injection h with h2 h3
      simp [← h3, specRoundCountAux]
  | succ fuel ih =>
    intro iop c acc iop2 c2 rs h
    simp only [friLoop] at h
    by_cases hc : ctx.FRI_MIN_DEGREE < c.length / ctx.EXT_SIZE
    · rw [if_pos hc] at h
      have h2 := ih _ _ _ _ _ _ h
      rw [new_size_step] at h2
      simp only [specRoundCountAux, if_pos hc]
      simp [h2]
      omega
    · rw [if_neg hc] at h
      injection h with h
      injection h with h1 h
      injection h with h2 h3
      simp [← h3, specRoundCountAux, if_neg hc]

lemma friLoop_trace (ctx : FriCtx) :
    ∀ (fuel : Nat) (iop : Iop) (c : List Nat) (acc : List ProveRoundInfo)
      (iop2 : Iop) (c2 : List Nat) (rs : List ProveRoundInfo),
      friLoop ctx fuel iop c acc = some (iop2, c2, rs) →
      ∃ e, iop2.trace = iop.trace ++ e ∧ e.countP TOp.isMerkleOpen = 0 ∧
        e.countP TOp.isDrawU32 = 0 := by
  intro fuel
  induction fuel with
  | zero =>
    intro iop c acc iop2 c2 rs h
    simp only [friLoop] at h
    by_cases hc : ctx.FRI_MIN_DEGREE < c.length / ctx.EXT_SIZE
    · rw [if_pos hc] at h
      exact absurd h (by simp)
    · rw [if_neg hc] at h
      injection h with h
      injection h with h1 h
      exact ⟨[], by simp [← h1], by simp, by simp⟩
  | succ fuel ih =>
    intro iop c acc iop2 c2 rs h
    simp only [friLoop] at h
    by_cases hc : ctx.FRI_MIN_DEGREE < c.length / ctx.EXT_SIZE
    · rw [if_pos hc] at h
      obtain ⟨e, he, hcnt1, hcnt2⟩ := ih _ _ _ _ _ _ h
      refine ⟨[TOp.commitRoot (roundRoot ctx c), TOp.drawExt (roundMix ctx iop c)] ++ e,
        ?_, ?_, ?_⟩
      · rw [he, new_fst_trace]
        simp
      · simp [List.countP_append, hcnt1, List.countP_cons, TOp.isMerkleOpen]
      · simp [List.countP_append, hcnt2, List.countP_cons, TOp.isDrawU32]
    · rw [if_neg hc] at h
      injection h with h
      injection h with h1 h
      exact ⟨[], by simp [← h1], by simp, by simp⟩

lemma prove_query_fst (ctx : FriCtx) (r : ProveRoundInfo) (iop : Iop) (pos : Nat) :
    (r.prove_query ctx iop pos).1.trace
      = iop.trace ++ [TOp.merkleOpen (pos % (r.domain / ctx.FRI_FOLD))] := rfl

lemma prove_query_snd (ctx : FriCtx) (r : ProveRoundInfo) (iop : Iop) (pos : Nat) :
    (r.prove_query ctx iop pos).2 = pos % (r.domain / ctx.FRI_FOLD) := rfl

lemma posGroups_length (ctx : FriCtx) :
    ∀ (rs : List ProveRoundInfo) (pos : Nat), (posGroups ctx rs pos).length = rs.length := by
  intro rs
  induction rs with
  | nil => intro pos; rfl
  | cons r rs ih => intro pos; simp [posGroups, ih]

lemma proveQueryRounds_trace (ctx : FriCtx) :
    ∀ (rs : List ProveRoundInfo) (iop : Iop) (pos : Nat),
      (proveQueryRounds ctx rs iop pos).1.trace
        = iop.trace ++ (posGroups ctx rs pos).map TOp.merkleOpen := by
  intro rs
  induction rs with
  | nil => intro iop pos; simp [proveQueryRounds, posGroups]
  | cons r rs ih =>
    intro iop pos
    simp only [proveQueryRounds, posGroups]
    rw [ih, prove_query_fst, prove_query_snd]
    simp

lemma proveQueryRounds_snd (ctx : FriCtx) :
    ∀ (rs : List ProveRoundInfo) (iop : Iop) (pos : Nat),
      (proveQueryRounds ctx rs iop pos).2
        = List.foldl (fun q r => q % (r.domain / ctx.FRI_FOLD)) pos rs := by
  intro rs
  induction rs with
  | nil => intro iop pos; rfl
  | cons r rs ih =>
    intro iop pos
    simp only [proveQueryRounds, List.foldl_cons]
    rw [ih, prove_query_snd]

lemma countP_map_merkleOpen (gs : List Nat) :
    (gs.map TOp.merkleOpen).countP TOp.isMerkleOpen = gs.length := by
  induction gs with
  | nil => rfl
  | cons g gs ih => simp [List.countP_cons, ih, TOp.isMerkleOpen]

lemma countP_map_merkleOpen_u32 (gs : List Nat) :
    (gs.map TOp.merkleOpen).countP TOp.isDrawU32 = 0 := by
  induction gs with
  | nil => rfl
  | cons g gs ih => simp [List.countP_cons, ih, TOp.isDrawU32]

lemma countP_comp_open (gs : List Nat) :
    List.countP (TOp.isMerkleOpen ∘ TOp.merkleOpen) gs = gs.length := by
  induction gs with
  | nil => rfl
  | cons g gs ih => simp [List.countP_cons, ih, TOp.isMerkleOpen, Function.comp]

lemma countP_comp_open_u32 (gs : List Nat) :
    List.countP (TOp.isDrawU32 ∘ TOp.merkleOpen) gs = 0 := by
  induction gs with
  | nil => rfl
  | cons g gs ih => simp [List.countP_cons, ih, TOp.isDrawU32, Function.comp]

/-- The contract of the caller-supplied query callback: it only appends data to
the transcript, and contributes no Merkle opening of its own and no 32-bit draw. -/
def CbAppends (f : Iop → Nat → Iop) : Prop :=
  ∀ iop pos, ∃ e, (f iop pos).trace = iop.trace ++ e ∧
    e.countP TOp.isMerkleOpen = 0 ∧ e.countP TOp.isDrawU32 = 0

lemma queryIter_counts (ctx : FriCtx) (f : Iop → Nat → Iop) (orig_domain : Nat)
    (rounds : List ProveRoundInfo) (hf : CbAppends f) (iop : Iop) :
    (queryIter ctx f orig_domain rounds iop).trace.countP TOp.isMerkleOpen
        = iop.trace.countP TOp.isMerkleOpen + rounds.length ∧
    (queryIter ctx f orig_domain rounds iop).trace.countP TOp.isDrawU32
        = iop.trace.countP TOp.isDrawU32 + 1 := by
  obtain ⟨e, he, hc1, hc2⟩ :=
    hf ⟨iop.trace ++ [TOp.drawU32 (ctx.rngNextU32 iop.rng).1], (ctx.rngNextU32 iop.rng).2⟩
      ((ctx.rngNextU32 iop.rng).1 % orig_domain)
  constructor
  · rw [queryIter]
    rw [proveQueryRounds_trace]
    simp only [Iop.draw_u32]
    rw [he]
    simp [List.countP_append, List.countP_cons, hc1, TOp.isMerkleOpen,
      countP_comp_open, posGroups_length]
  · rw [queryIter]
    rw [proveQueryRounds_trace]
    simp only [Iop.draw_u32]
    rw [he]
    simp [List.countP_append, List.countP_cons, hc2, TOp.isDrawU32,
      countP_comp_open_u32]

lemma queryPhase_counts (ctx : FriCtx) (f : Iop → Nat → Iop) (orig_domain : Nat)
    (rounds : List ProveRoundInfo) (hf : CbAppends f) :
    ∀ (q : Nat) (iop : Iop),
      (queryPhase ctx f orig_domain rounds q iop).trace.countP TOp.isMerkleOpen
          = iop.trace.countP TOp.isMerkleOpen + q * rounds.length ∧
      (queryPhase ctx f orig_domain rounds q iop).trace.countP TOp.isDrawU32
          = iop.trace.countP TOp.isDrawU32 + q := by
  intro q
  induction q with
  | zero => intro iop; simp [queryPhase]
  | succ q ih =>
    intro iop
    obtain ⟨h1, h2⟩ := queryIter_counts ctx f orig_domain rounds hf iop
    obtain ⟨h3, h4⟩ := ih (queryIter ctx f orig_domain rounds iop)
    constructor
    · rw [queryPhase, h3, h1]
      ring
    · rw [queryPhase, h4, h2]
      ring

/-- A test context with trivial (identity-content) external capabilities:
extension degree 1, blow-up 1, fold factor 2, minimum degree 1, one query. -/
def idCtx : FriCtx where
  EXT_SIZE := 1
  INV_RATE := 1
  FRI_FOLD := 2
  FRI_MIN_DEGREE := 1
  QUERIES := 1
  batch_expand := fun d _ _ => d
  batch_evaluate_ntt := fun d _ _ => d
  fri_fold := fun d _ _ => d
  eltwise_copy_elem := fun d _ => d
  batch_bit_reverse := fun d _ => d
  hash_raw_pod_slice := fun xs => xs.length
  merkle_root := fun xs r c q => xs.length + r + c + q
  rngNextExt := fun r => (r, r + 1)
  rngNextU32 := fun r => (r, r + 1)
  rngMix := fun d r => d + r + 1
  ext_size_pos := by decide
  fri_fold_two := by decide
  inv_rate_pos := by decide
  batch_expand_length := fun _ _ _ => rfl
  batch_evaluate_ntt_length := fun _ _ _ => rfl
  fri_fold_length := fun _ _ _ => rfl
  eltwise_copy_elem_length := fun _ _ => rfl
  batch_bit_reverse_length := fun _ _ => rfl

/-- A test context with blow-up 4 and fold factor 4 (minimum degree 1). -/
def ctx94 : FriCtx :=
  { idCtx with
    INV_RATE := 4
    FRI_FOLD := 4
    fri_fold_two := by decide
    inv_rate_pos := by decide }

/-- A test context with blow-up 4, fold factor 4 and minimum degree 2. -/
def ctx42 : FriCtx :=
  { idCtx with
    INV_RATE := 4
    FRI_FOLD := 4
    FRI_MIN_DEGREE := 2
    fri_fold_two := by decide
    inv_rate_pos := by decide }

/-- A trivial query callback that appends nothing. -/
def cb0 : Iop → Nat → Iop := fun iop _ => iop

/-- An empty starting transcript. -/
def iop0 : Iop := ⟨[], 0⟩

lemma cb0_appends : CbAppends cb0 := by
  intro iop pos
  exact ⟨[], by simp [cb0], by simp, by simp⟩

/-- C1: in every folding round, the sequence of transcript operations is
exactly a Merkle-root commitment followed by the extension-field fold-mix
draw: the commitment strictly precedes the draw, and no challenge draw
occurs before the commitment. -/
theorem round_commit_precedes_challenge (ctx : FriCtx) (iop : Iop) (coeffs : List Nat) :
    ∃ r x,
      (ProveRoundInfo.new ctx iop coeffs).1.trace
        = iop.trace ++ [TOp.commitRoot r, TOp.drawExt x] ∧
      ∃ i j : Nat, i < j ∧
        ((ProveRoundInfo.new ctx iop coeffs).1.trace.drop iop.trace.length).get? i
          = some (TOp.commitRoot r) ∧
        ((ProveRoundInfo.new ctx iop coeffs).1.trace.drop iop.trace.length).get? j
          = some (TOp.drawExt x) ∧
        (((ProveRoundInfo.new ctx iop coeffs).1.trace.drop iop.trace.length).take
            i).countP TOp.isDraw = 0 := by
  refine ⟨roundRoot ctx coeffs, roundMix ctx iop coeffs, new_fst_trace ctx iop coeffs,
    0, 1, by omega, ?_, ?_, ?_⟩
  · rw [new_fst_trace, List.drop_left]
    rfl
  · rw [new_fst_trace, List.drop_left]
    rfl
  · rw [new_fst_trace, List.drop_left]
    rfl

/-- C2: the number of folding rounds performed by `fri_prove` (entries of the
rounds list) equals the number of times the per-extension coefficient count can
be integer-divided by the fold factor before the result is at or below the
minimum degree; in particular 1024 with fold 8 and minimum 16 gives 2 rounds. -/
theorem fri_prove_round_count (ctx : FriCtx) (f : Iop → Nat → Iop) (iop : Iop)
    (coeffs : List Nat) :
    (fri_prove ctx f iop coeffs).rounds.length
      = specRoundCount (coeffs.length / ctx.EXT_SIZE) ctx.FRI_FOLD ctx.FRI_MIN_DEGREE ∧
    specRoundCount 1024 8 16 = 2 := by
  constructor
  · have h := friLoop_eq_run ctx iop coeffs
    have h2 := friLoop_length ctx (coeffs.length / ctx.EXT_SIZE) iop coeffs []
      (friLoopRun ctx iop coeffs).1 (friLoopRun ctx iop coeffs).2.1
      (friLoopRun ctx iop coeffs).2.2 h
    simpa [fri_prove, specRoundCount] using h2
  · decide

/-- C10: the folding loop of `fri_prove` terminates on every input: the loop
run with fuel equal to the initial per-extension coefficient count always
completes, each iteration strictly shrinks a count that exceeds the threshold,
and the terminal buffer is at or below the threshold. -/
theorem fri_prove_fold_terminates (ctx : FriCtx) (f : Iop → Nat → Iop) (iop : Iop)
    (coeffs : List Nat) :
    (friLoop ctx (coeffs.length / ctx.EXT_SIZE) iop coeffs []).isSome = true ∧
    (∀ s : Nat, ctx.FRI_MIN_DEGREE < s → s / ctx.FRI_FOLD < s) ∧
    (fri_prove ctx f iop coeffs).final_coeffs.length / ctx.EXT_SIZE
      ≤ ctx.FRI_MIN_DEGREE := by
  refine ⟨friLoop_isSome ctx _ iop coeffs [] (Nat.le_add_right _ _), ?_, ?_⟩
  · intro s hs
    exact Nat.div_lt_self (by omega) (by have := ctx.fri_fold_two; omega)
  · have h := friLoop_eq_run ctx iop coeffs
    obtain ⟨l, hrs, hgeo, hsz, hle, _, _⟩ := friLoop_spec ctx _ iop coeffs []
      (friLoopRun ctx iop coeffs).1 (friLoopRun ctx iop coeffs).2.1
      (friLoopRun ctx iop coeffs).2.2 h
    have hfin : (fri_prove ctx f iop coeffs).final_coeffs.length
        = (friLoopRun ctx iop coeffs).2.1.length := by
      simp [fri_prove, ctx.batch_bit_reverse_length, ctx.eltwise_copy_elem_length]
    rw [hfin]
    exact hle

lemma fri_prove_rounds_eq (ctx : FriCtx) (f : Iop → Nat → Iop) (iop : Iop)
    (coeffs : List Nat) :
    (fri_prove ctx f iop coeffs).rounds = (friLoopRun ctx iop coeffs).2.2 := rfl

lemma fri_prove_final_eq (ctx : FriCtx) (f : Iop → Nat → Iop) (iop : Iop)
    (coeffs : List Nat) :
    (fri_prove ctx f iop coeffs).final_coeffs
      = ctx.batch_bit_reverse
          (ctx.eltwise_copy_elem
            (List.replicate (friLoopRun ctx iop coeffs).2.1.length 0)
            (friLoopRun ctx iop coeffs).2.1) ctx.EXT_SIZE := rfl

lemma fri_prove_iop_eq (ctx : FriCtx) (f : Iop → Nat → Iop) (iop : Iop)
    (coeffs : List Nat) :
    (fri_prove ctx f iop coeffs).iop
      = queryPhase ctx f (coeffs.length / ctx.EXT_SIZE * ctx.INV_RATE)
          (friLoopRun ctx iop coeffs).2.2 ctx.QUERIES
          (Iop.commit ctx
            (((friLoopRun ctx iop coeffs).1).write_field_elem_slice
              (fri_prove ctx f iop coeffs).final_coeffs)
            (ctx.hash_raw_pod_slice (fri_prove ctx f iop coeffs).final_coeffs)) := rfl

/-- C8: `fri_prove` is deterministic: two executions with equal starting
transcripts and equal coefficient buffers (same context and callback) produce
equal results — every appended operation, drawn challenge and query position
coincides. -/
theorem fri_prove_deterministic (ctx : FriCtx) (f : Iop → Nat → Iop)
    (iop1 iop2 : Iop) (c1 c2 : List Nat) (hio : iop1 = iop2) (hc : c1 = c2) :
    fri_prove ctx f iop1 c1 = fri_prove ctx f iop2 c2 := by
  subst hio
  subst hc
  rfl

/-- Witness for C8 at a concrete context, transcript and buffer. -/
theorem fri_prove_deterministic_witness :
    iop0 = iop0 ∧ ([0, 0, 0, 0] : List Nat) = [0, 0, 0, 0] ∧
    fri_prove idCtx cb0 iop0 [0, 0, 0, 0] = fri_prove idCtx cb0 iop0 [0, 0, 0, 0] :=
  ⟨rfl, rfl, fri_prove_deterministic idCtx cb0 iop0 iop0 [0, 0, 0, 0] [0, 0, 0, 0] rfl rfl⟩

/-- C5: the query phase runs exactly `QUERIES` iterations; each iteration first
draws one 32-bit value, reduces it modulo the original domain, invokes the
callback at that position, then opens each retained round in creation order;
so (for a callback that only appends and contributes no opening or 32-bit
draw of its own) the total number of Merkle openings appended equals
`QUERIES ×` the number of rounds, and exactly `QUERIES` 32-bit draws occur. -/
theorem fri_prove_query_phase (ctx : FriCtx) (f : Iop → Nat → Iop) (iop : Iop)
    (coeffs : List Nat) (hf : CbAppends f) :
    (∀ (rounds : List ProveRoundInfo) (orig_domain : Nat) (iopq : Iop),
      queryIter ctx f orig_domain rounds iopq
        = (proveQueryRounds ctx rounds
            (f ⟨iopq.trace ++ [TOp.drawU32 (ctx.rngNextU32 iopq.rng).1],
               (ctx.rngNextU32 iopq.rng).2⟩
              ((ctx.rngNextU32 iopq.rng).1 % orig_domain))
            ((ctx.rngNextU32 iopq.rng).1 % orig_domain)).1 ∧
      ∃ e, (queryIter ctx f orig_domain rounds iopq).trace
          = iopq.trace ++ [TOp.drawU32 (ctx.rngNextU32 iopq.rng).1] ++ e
            ++ ((posGroups ctx rounds ((ctx.rngNextU32 iopq.rng).1 % orig_domain)).map
                TOp.merkleOpen) ∧
        e.countP TOp.isMerkleOpen = 0 ∧
        (posGroups ctx rounds ((ctx.rngNextU32 iopq.rng).1 % orig_domain)).length
          = rounds.length) ∧
    (fri_prove ctx f iop coeffs).iop.trace.countP TOp.isMerkleOpen
      = iop.trace.countP TOp.isMerkleOpen
        + ctx.QUERIES * (fri_prove ctx f iop coeffs).rounds.length ∧
    (fri_prove ctx f iop coeffs).iop.trace.countP TOp.isDrawU32
      = iop.trace.countP TOp.isDrawU32 + ctx.QUERIES := by
  refine ⟨?_, ?_, ?_⟩
  · intro rounds orig_domain iopq
    constructor
    · rfl
    · obtain ⟨e, he, hc1, _⟩ :=
        hf ⟨iopq.trace ++ [TOp.drawU32 (ctx.rngNextU32 iopq.rng).1],
            (ctx.rngNextU32 iopq.rng).2⟩
          ((ctx.rngNextU32 iopq.rng).1 % orig_domain)
      refine ⟨e, ?_, hc1, posGroups_length ctx rounds _⟩
      show (proveQueryRounds ctx rounds _ _).1.trace = _
      rw [proveQueryRounds_trace]
      simp only [Iop.draw_u32]
      rw [he]
  · have hrun := friLoop_eq_run ctx iop coeffs
    obtain ⟨e0, he0, hc0, _⟩ := friLoop_trace ctx (coeffs.length / ctx.EXT_SIZE) iop coeffs []
      (friLoopRun ctx iop coeffs).1 (friLoopRun ctx iop coeffs).2.1
      (friLoopRun ctx iop coeffs).2.2 hrun
    obtain ⟨hq1, _⟩ := queryPhase_counts ctx f (coeffs.length / ctx.EXT_SIZE * ctx.INV_RATE)
      (friLoopRun ctx iop coeffs).2.2 hf ctx.QUERIES
      (Iop.commit ctx
        (((friLoopRun ctx iop coeffs).1).write_field_elem_slice
          (fri_prove ctx f iop coeffs).final_coeffs)
        (ctx.hash_raw_pod_slice (fri_prove ctx f iop coeffs).final_coeffs))
    rw [fri_prove_iop_eq, fri_prove_rounds_eq, hq1]
    simp only [Iop.commit, Iop.write_field_elem_slice]
    rw [he0]
    simp [List.countP_append, List.countP_cons, hc0, TOp.isMerkleOpen, Nat.mul_comm]
  · have hrun := friLoop_eq_run ctx iop coeffs
    obtain ⟨e0, he0, _, hd0⟩ := friLoop_trace ctx (coeffs.length / ctx.EXT_SIZE) iop coeffs []
      (friLoopRun ctx iop coeffs).1 (friLoopRun ctx iop coeffs).2.1
      (friLoopRun ctx iop coeffs).2.2 hrun
    obtain ⟨_, hq2⟩ := queryPhase_counts ctx f (coeffs.length / ctx.EXT_SIZE * ctx.INV_RATE)
      (friLoopRun ctx iop coeffs).2.2 hf ctx.QUERIES
      (Iop.commit ctx
        (((friLoopRun ctx iop coeffs).1).write_field_elem_slice
          (fri_prove ctx f iop coeffs).final_coeffs)
        (ctx.hash_raw_pod_slice (fri_prove ctx f iop coeffs).final_coeffs))
    rw [fri_prove_iop_eq, hq2]
    simp only [Iop.commit, Iop.write_field_elem_slice]
    rw [he0]
    simp [List.countP_append, List.countP_cons, hd0, TOp.isDrawU32]

/-- Witness for C5 at a concrete context, callback, transcript and buffer. -/
theorem fri_prove_query_phase_witness :
    CbAppends cb0 ∧
    (fri_prove idCtx cb0 iop0 [0, 0, 0, 0]).iop.trace.countP TOp.isMerkleOpen
      = iop0.trace.countP TOp.isMerkleOpen
        + idCtx.QUERIES * (fri_prove idCtx cb0 iop0 [0, 0, 0, 0]).rounds.length :=
  ⟨cb0_appends, (fri_prove_query_phase idCtx cb0 iop0 [0, 0, 0, 0] cb0_appends).2.1⟩

lemma mul_div_right_of_dvd (a b c : Nat) (hc : 0 < c) (h : c ∣ a) :
    a * b / c = a / c * b := by
  obtain ⟨t, rfl⟩ := h
  rw [Nat.mul_assoc, Nat.mul_div_cancel_left _ hc, Nat.mul_div_cancel_left _ hc]

lemma div_pow_div (s fold j : Nat) : s / fold ^ j / fold = s / fold ^ (j + 1) := by
  rw [Nat.div_div_eq_div_mul, ← pow_succ]

/-- C3 (amended): provided each retained round's per-extension coefficient
count is divisible by `FRI_FOLD` (equivalently `FRI_FOLD` divides
`domain / INV_RATE`, as in the protocol's power-of-two configurations), the
position threaded by `prove_query` through rounds `0..i` equals direct modular
reduction of the original position by `domain_i / FRI_FOLD`. -/
theorem fri_position_reduction (ctx : FriCtx) (f : Iop → Nat → Iop) (iop : Iop)
    (coeffs : List Nat)
    (hdvd : ∀ r ∈ (fri_prove ctx f iop coeffs).rounds,
      ctx.FRI_FOLD ∣ r.domain / ctx.INV_RATE)
    (p : Nat) (hp : p < coeffs.length / ctx.EXT_SIZE * ctx.INV_RATE)
    (i : Nat) (hi : i < (fri_prove ctx f iop coeffs).rounds.length) (iopq : Iop) :
    (proveQueryRounds ctx ((fri_prove ctx f iop coeffs).rounds.take (i + 1)) iopq p).2
      = p % (((fri_prove ctx f iop coeffs).rounds.get ⟨i, hi⟩).domain / ctx.FRI_FOLD) := by
  have hrun := friLoop_eq_run ctx iop coeffs
  obtain ⟨l, hrs, hgeo, _, _, _, _⟩ := friLoop_spec ctx (coeffs.length / ctx.EXT_SIZE)
    iop coeffs [] (friLoopRun ctx iop coeffs).1 (friLoopRun ctx iop coeffs).2.1
    (friLoopRun ctx iop coeffs).2.2 hrun
  have hrounds : (fri_prove ctx f iop coeffs).rounds = l := by
    rw [fri_prove_rounds_eq, hrs]
    simp
  have hfpos : 0 < ctx.FRI_FOLD := by
    have := ctx.fri_fold_two
    omega
  rw [← hrounds] at hgeo
  have hdvdS : ∀ j (hj : j < (fri_prove ctx f iop coeffs).rounds.length),
      ctx.FRI_FOLD ∣ coeffs.length / ctx.EXT_SIZE / ctx.FRI_FOLD ^ j := by
    intro j hj
    have h1 := hdvd _ (List.get_mem (fri_prove ctx f iop coeffs).rounds j hj)
    rw [(hgeo j hj).1] at h1
    rwa [Nat.mul_div_cancel _ ctx.inv_rate_pos] at h1
  have hmod : ∀ j (hj : j < (fri_prove ctx f iop coeffs).rounds.length),
      ((fri_prove ctx f iop coeffs).rounds.get ⟨j, hj⟩).domain / ctx.FRI_FOLD
        = coeffs.length / ctx.EXT_SIZE / ctx.FRI_FOLD ^ (j + 1) * ctx.INV_RATE := by
    intro j hj
    rw [(hgeo j hj).1, mul_div_right_of_dvd _ _ _ hfpos (hdvdS j hj), div_pow_div]
  have key : ∀ i2 (hi2 : i2 < (fri_prove ctx f iop coeffs).rounds.length) (iopr : Iop),
      (proveQueryRounds ctx ((fri_prove ctx f iop coeffs).rounds.take (i2 + 1)) iopr p).2
        = p % (((fri_prove ctx f iop coeffs).rounds.get ⟨i2, hi2⟩).domain
            / ctx.FRI_FOLD) := by
    intro i2
    induction i2 with
    | zero =>
      intro hi2 iopr
      rw [proveQueryRounds_snd]
      have ht : (fri_prove ctx f iop coeffs).rounds.take 1
          = [(fri_prove ctx f iop coeffs).rounds.get ⟨0, hi2⟩] := by
        rw [← List.take_concat_get _ 0 hi2, List.take_zero]
        rfl
      rw [ht]
      rfl
    | succ i2 ih =>
      intro hi2 iopr
      have hi1 : i2 < (fri_prove ctx f iop coeffs).rounds.length := by omega
      rw [proveQueryRounds_snd, ← List.take_concat_get _ (i2 + 1) hi2,
        List.concat_eq_append, List.foldl_append]
      have ihv := ih hi1 iopr
      rw [proveQueryRounds_snd] at ihv
      rw [ihv]
      simp only [List.foldl_cons, List.foldl_nil]
      have hmm := hmod (i2 + 1) hi2
      rw [List.get_eq_getElem] at hmm
      rw [hmod i2 hi1, hmm, hmod (i2 + 1) hi2]
      apply Nat.mod_mod_of_dvd
      obtain ⟨t, ht⟩ := hdvdS (i2 + 1) hi2
      have h2 : coeffs.length / ctx.EXT_SIZE / ctx.FRI_FOLD ^ (i2 + 1 + 1) = t := by
        rw [← div_pow_div, ht, Nat.mul_div_cancel_left _ hfpos]
      rw [h2, ht]
      exact ⟨ctx.FRI_FOLD, by ring⟩
  exact key i hi iopq

/-- Counterexample for C3 as stated: with blow-up 4 and fold factor 4, a buffer
of 9 coefficients yields round domains 36 and 8; for original position 10 the
threaded position after rounds 0..1 is 1, while direct reduction modulo
`domain_1 / FRI_FOLD = 2` gives 0. -/
theorem fri_position_reduction_cex :
    ((fri_prove ctx94 cb0 iop0 (List.replicate 9 0)).rounds.map fun r => r.domain)
        = [36, 8] ∧
    10 < (List.replicate 9 (0 : Nat)).length / ctx94.EXT_SIZE * ctx94.INV_RATE ∧
    (proveQueryRounds ctx94
        ((fri_prove ctx94 cb0 iop0 (List.replicate 9 0)).rounds.take 2) iop0 10).2 = 1 ∧
    10 % (((fri_prove ctx94 cb0 iop0 (List.replicate 9 0)).rounds.map
        fun r => r.domain).getD 1 0 / ctx94.FRI_FOLD) = 0 ∧
    (1 : Nat) ≠ 0 := by
  refine ⟨by decide, by decide, by decide, by decide, by decide⟩

/-- Witness for the amended C3 at a concrete context and run. -/
theorem fri_position_reduction_witness :
    (proveQueryRounds idCtx ((fri_prove idCtx cb0 iop0 [0, 0, 0, 0]).rounds.take 2)
        iop0 3).2
      = 3 % (((fri_prove idCtx cb0 iop0 [0, 0, 0, 0]).rounds.get
          ⟨1, by decide⟩).domain / idCtx.FRI_FOLD) :=
  fri_position_reduction idCtx cb0 iop0 [0, 0, 0, 0] (by decide) 3 (by decide) 1
    (by decide) iop0

lemma fri_prove_geo (ctx : FriCtx) (f : Iop → Nat → Iop) (iop : Iop) (coeffs : List Nat) :
    RoundsGeo ctx (coeffs.length / ctx.EXT_SIZE) (fri_prove ctx f iop coeffs).rounds := by
  have hrun := friLoop_eq_run ctx iop coeffs
  obtain ⟨l, hrs, hgeo, _, _, _, _⟩ := friLoop_spec ctx (coeffs.length / ctx.EXT_SIZE)
    iop coeffs [] (friLoopRun ctx iop coeffs).1 (friLoopRun ctx iop coeffs).2.1
    (friLoopRun ctx iop coeffs).2.2 hrun
  have hrounds : (fri_prove ctx f iop coeffs).rounds = l := by
    rw [fri_prove_rounds_eq, hrs]
    simp
  rw [← hrounds] at hgeo
  exact hgeo

lemma fri_prove_sizes_dvd (ctx : FriCtx) (f : Iop → Nat → Iop) (iop : Iop)
    (coeffs : List Nat)
    (hdvd : ∀ r ∈ (fri_prove ctx f iop coeffs).rounds,
      ctx.FRI_FOLD ∣ r.domain / ctx.INV_RATE) :
    ∀ j (hj : j < (fri_prove ctx f iop coeffs).rounds.length),
      ctx.FRI_FOLD ∣ coeffs.length / ctx.EXT_SIZE / ctx.FRI_FOLD ^ j := by
  intro j hj
  have h1 := hdvd _ (List.get_mem (fri_prove ctx f iop coeffs).rounds j hj)
  rw [(fri_prove_geo ctx f iop coeffs j hj).1] at h1
  rwa [Nat.mul_div_cancel _ ctx.inv_rate_pos] at h1

/-- C6 (amended): every round's evaluation domain is the per-extension input
count times the blow-up factor, and its folded output has the input count
divided by the fold factor; consequently (when each retained round's
per-extension count is divisible by the fold factor, as in the protocol's
power-of-two configurations) successive round domains form a strictly
decreasing geometric sequence with ratio `FRI_FOLD`. -/
theorem fri_round_domains (ctx : FriCtx) (f : Iop → Nat → Iop) (iop : Iop)
    (coeffs : List Nat)
    (hdvd : ∀ r ∈ (fri_prove ctx f iop coeffs).rounds,
      ctx.FRI_FOLD ∣ r.domain / ctx.INV_RATE) :
    (∀ (iopr : Iop) (c : List Nat),
      ((ProveRoundInfo.new ctx iopr c).2).domain
          = c.length / ctx.EXT_SIZE * ctx.INV_RATE ∧
      ((ProveRoundInfo.new ctx iopr c).2).coeffs.length
          = c.length / ctx.EXT_SIZE / ctx.FRI_FOLD * ctx.EXT_SIZE) ∧
    (∀ j (hj : j < (fri_prove ctx f iop coeffs).rounds.length),
      ((fri_prove ctx f iop coeffs).rounds.get ⟨j, hj⟩).domain
        = coeffs.length / ctx.EXT_SIZE / ctx.FRI_FOLD ^ j * ctx.INV_RATE) ∧
    (∀ j (hj : j + 1 < (fri_prove ctx f iop coeffs).rounds.length),
      ((fri_prove ctx f iop coeffs).rounds.get ⟨j + 1, hj⟩).domain * ctx.FRI_FOLD
          = ((fri_prove ctx f iop coeffs).rounds.get ⟨j, by omega⟩).domain ∧
      ((fri_prove ctx f iop coeffs).rounds.get ⟨j + 1, hj⟩).domain
          < ((fri_prove ctx f iop coeffs).rounds.get ⟨j, by omega⟩).domain) := by
  have hfpos : 0 < ctx.FRI_FOLD := by
    have := ctx.fri_fold_two
    omega
  refine ⟨?_, ?_, ?_⟩
  · intro iopr c
    exact ⟨new_snd_domain ctx iopr c, new_snd_coeffs_length ctx iopr c⟩
  · intro j hj
    exact (fri_prove_geo ctx f iop coeffs j hj).1
  · intro j hj
    have hj0 : j < (fri_prove ctx f iop coeffs).rounds.length := by omega
    have hd0 := (fri_prove_geo ctx f iop coeffs j hj0).1
    have hd1 := (fri_prove_geo ctx f iop coeffs (j + 1) hj).1
    have hmin := (fri_prove_geo ctx f iop coeffs j hj0).2.2.2
    obtain ⟨t, ht⟩ := fri_prove_sizes_dvd ctx f iop coeffs hdvd j hj0
    have hs1 : coeffs.length / ctx.EXT_SIZE / ctx.FRI_FOLD ^ (j + 1) = t := by
      rw [← div_pow_div, ht, Nat.mul_div_cancel_left _ hfpos]
    rw [ht] at hmin
    have hT : 0 < t := by
      rcases Nat.eq_zero_or_pos t with h0 | h0
      · rw [h0, Nat.mul_zero] at hmin
        omega
      · exact h0
    constructor
    · rw [hd1, hd0, hs1, ht]
      ring
    · rw [hd1, hd0, hs1, ht]
      have hIV := ctx.inv_rate_pos
      have hF := ctx.fri_fold_two
      calc t * ctx.INV_RATE < 2 * (t * ctx.INV_RATE) := by
            have := Nat.mul_pos hT hIV
            omega
        _ ≤ ctx.FRI_FOLD * (t * ctx.INV_RATE) := Nat.mul_le_mul_right _ hF
        _ = ctx.FRI_FOLD * t * ctx.INV_RATE := by ring

/-- Counterexample for C6 as stated: with blow-up 4 and fold factor 4, a buffer
of 9 coefficients yields round domains 36 and 8, and 8 × 4 ≠ 36 — the domains
do not form a geometric sequence with ratio exactly `FRI_FOLD`. -/
theorem fri_round_domains_cex :
    ((fri_prove ctx94 cb0 iop0 (List.replicate 9 0)).rounds.map fun r => r.domain)
        = [36, 8] ∧
    8 * ctx94.FRI_FOLD ≠ 36 := by
  refine ⟨by decide, by decide⟩

/-- Witness for the amended C6 at a concrete context and run. -/
theorem fri_round_domains_witness :
    ((fri_prove idCtx cb0 iop0 [0, 0, 0, 0]).rounds.get ⟨1, by decide⟩).domain
        * idCtx.FRI_FOLD
      = ((fri_prove idCtx cb0 iop0 [0, 0, 0, 0]).rounds.get ⟨0, by decide⟩).domain :=
  ((fri_round_domains idCtx cb0 iop0 [0, 0, 0, 0] (by decide)).2.2 0 (by decide)).1

/-- C9 (amended): provided each retained round's per-extension count is
divisible by `FRI_FOLD`, `prove_query` opens leaf index `pos mod (domain /
FRI_FOLD)`, which is strictly below the row count the round's Merkle tree was
built with, for every incoming position; the reduced position is strictly below
`domain / FRI_FOLD`, which equals the next round's evaluation domain. -/
theorem fri_query_bounds (ctx : FriCtx) (f : Iop → Nat → Iop) (iop : Iop)
    (coeffs : List Nat)
    (hdvd : ∀ r ∈ (fri_prove ctx f iop coeffs).rounds,
      ctx.FRI_FOLD ∣ r.domain / ctx.INV_RATE)
    (j : Nat) (hj : j < (fri_prove ctx f iop coeffs).rounds.length)
    (iopq : Iop) (pos : Nat) :
    (((fri_prove ctx f iop coeffs).rounds.get ⟨j, hj⟩).prove_query ctx iopq pos).1.trace
        = iopq.trace ++ [TOp.merkleOpen
            ((((fri_prove ctx f iop coeffs).rounds.get ⟨j, hj⟩).prove_query ctx
              iopq pos).2)] ∧
    (((fri_prove ctx f iop coeffs).rounds.get ⟨j, hj⟩).prove_query ctx iopq pos).2
        < ((fri_prove ctx f iop coeffs).rounds.get ⟨j, hj⟩).merkle.rows ∧
    (((fri_prove ctx f iop coeffs).rounds.get ⟨j, hj⟩).prove_query ctx iopq pos).2
        < ((fri_prove ctx f iop coeffs).rounds.get ⟨j, hj⟩).domain / ctx.FRI_FOLD ∧
    ∀ (hj2 : j + 1 < (fri_prove ctx f iop coeffs).rounds.length),
      ((fri_prove ctx f iop coeffs).rounds.get ⟨j, hj⟩).domain / ctx.FRI_FOLD
        = ((fri_prove ctx f iop coeffs).rounds.get ⟨j + 1, hj2⟩).domain := by
  have hfpos : 0 < ctx.FRI_FOLD := by
    have := ctx.fri_fold_two
    omega
  obtain ⟨hdom, hrows, _, hmin⟩ := fri_prove_geo ctx f iop coeffs j hj
  have hdj := fri_prove_sizes_dvd ctx f iop coeffs hdvd j hj
  obtain ⟨t, ht⟩ := hdj
  have hs1 : coeffs.length / ctx.EXT_SIZE / ctx.FRI_FOLD ^ j / ctx.FRI_FOLD = t := by
    rw [ht, Nat.mul_div_cancel_left _ hfpos]
  rw [ht] at hmin
  have hT : 0 < t := by
    rcases Nat.eq_zero_or_pos t with h0 | h0
    · rw [h0, Nat.mul_zero] at hmin
      omega
    · exact h0
  have hmodpos : 0 < ((fri_prove ctx f iop coeffs).rounds.get ⟨j, hj⟩).domain
      / ctx.FRI_FOLD := by
    rw [hdom, mul_div_right_of_dvd _ _ _ hfpos ⟨t, ht⟩, hs1]
    exact Nat.mul_pos hT ctx.inv_rate_pos
  refine ⟨rfl, ?_, ?_, ?_⟩
  · rw [prove_query_snd, hrows, ← hdom]
    exact Nat.mod_lt _ hmodpos
  · rw [prove_query_snd]
    exact Nat.mod_lt _ hmodpos
  · intro hj2
    have hdom2 := (fri_prove_geo ctx f iop coeffs (j + 1) hj2).1
    rw [hdom, hdom2, mul_div_right_of_dvd _ _ _ hfpos ⟨t, ht⟩, div_pow_div]

/-- Counterexample for C9 as stated: with blow-up 4 and fold factor 4, a buffer
of 9 coefficients yields round domains 36 and 8, and `36 / FRI_FOLD = 9` is not
the next round's evaluation domain 8. -/
theorem fri_query_bounds_cex :
    ((fri_prove ctx94 cb0 iop0 (List.replicate 9 0)).rounds.map fun r => r.domain)
        = [36, 8] ∧
    36 / ctx94.FRI_FOLD ≠ 8 := by
  refine ⟨by decide, by decide⟩

/-- Witness for the amended C9 at a concrete context, run and (out-of-range)
incoming position. -/
theorem fri_query_bounds_witness :
    (((fri_prove idCtx cb0 iop0 [0, 0, 0, 0]).rounds.get ⟨0, by decide⟩).prove_query
        idCtx iop0 7).2
      < ((fri_prove idCtx cb0 iop0 [0, 0, 0, 0]).rounds.get ⟨0, by decide⟩).merkle.rows :=
  (fri_query_bounds idCtx cb0 iop0 [0, 0, 0, 0] (by decide) 0 (by decide) iop0 7).2.1

/-- C4 (amended): after the folding loop, `fri_prove` copies the final buffer,
bit-reverses it into natural order, appends its raw values to the transcript,
hashes those values and commits the digest; the reveal has exactly
`(final per-extension count) × EXT_SIZE` elements, which equals
`FRI_MIN_DEGREE × EXT_SIZE` whenever the initial per-extension count is
`FRI_MIN_DEGREE × FRI_FOLD ^ rounds` — but not for every input. -/
theorem fri_terminal_reveal (ctx : FriCtx) (f : Iop → Nat → Iop) (iop : Iop)
    (coeffs : List Nat)
    (hext : ctx.EXT_SIZE ∣ coeffs.length)
    (hsz : coeffs.length / ctx.EXT_SIZE
      = ctx.FRI_MIN_DEGREE * ctx.FRI_FOLD ^ (fri_prove ctx f iop coeffs).rounds.length) :
    (fri_prove ctx f iop coeffs).final_coeffs
        = ctx.batch_bit_reverse
            (ctx.eltwise_copy_elem
              (List.replicate (friLoopRun ctx iop coeffs).2.1.length 0)
              (friLoopRun ctx iop coeffs).2.1) ctx.EXT_SIZE ∧
    (fri_prove ctx f iop coeffs).iop
        = queryPhase ctx f (coeffs.length / ctx.EXT_SIZE * ctx.INV_RATE)
            (friLoopRun ctx iop coeffs).2.2 ctx.QUERIES
            (Iop.commit ctx
              (((friLoopRun ctx iop coeffs).1).write_field_elem_slice
                (fri_prove ctx f iop coeffs).final_coeffs)
              (ctx.hash_raw_pod_slice (fri_prove ctx f iop coeffs).final_coeffs)) ∧
    (fri_prove ctx f iop coeffs).final_coeffs.length
        = coeffs.length / ctx.EXT_SIZE
            / ctx.FRI_FOLD ^ (fri_prove ctx f iop coeffs).rounds.length * ctx.EXT_SIZE ∧
    (fri_prove ctx f iop coeffs).final_coeffs.length
        = ctx.FRI_MIN_DEGREE * ctx.EXT_SIZE := by
  have hfpos : 0 < ctx.FRI_FOLD := by
    have := ctx.fri_fold_two
    omega
  have hrun := friLoop_eq_run ctx iop coeffs
  obtain ⟨l, hrs, _, _, _, hnil, hlen⟩ := friLoop_spec ctx (coeffs.length / ctx.EXT_SIZE)
    iop coeffs [] (friLoopRun ctx iop coeffs).1 (friLoopRun ctx iop coeffs).2.1
    (friLoopRun ctx iop coeffs).2.2 hrun
  have hrounds : (fri_prove ctx f iop coeffs).rounds = l := by
    rw [fri_prove_rounds_eq, hrs]
    simp
  have hfin : (fri_prove ctx f iop coeffs).final_coeffs.length
      = (friLoopRun ctx iop coeffs).2.1.length := by
    rw [fri_prove_final_eq]
    simp [ctx.batch_bit_reverse_length, ctx.eltwise_copy_elem_length]
  have hC : (fri_prove ctx f iop coeffs).final_coeffs.length
      = coeffs.length / ctx.EXT_SIZE
          / ctx.FRI_FOLD ^ (fri_prove ctx f iop coeffs).rounds.length * ctx.EXT_SIZE := by
    rw [hfin, hrounds]
    by_cases hl : l = []
    · rw [hnil hl, hl]
      simp only [List.length_nil, pow_zero, Nat.div_one]
      exact (Nat.div_mul_cancel hext).symm
    · exact hlen hl
  refine ⟨fri_prove_final_eq ctx f iop coeffs, fri_prove_iop_eq ctx f iop coeffs, hC, ?_⟩
  rw [hC, hsz, Nat.mul_div_cancel _ (pow_pos hfpos _)]

/-- Counterexample for C4 as stated: with fold factor 4 and minimum degree 2, a
buffer of 3 coefficients (above the threshold at entry) folds to an empty
buffer, so the terminal reveal has 0 elements, not `FRI_MIN_DEGREE × EXT_SIZE
= 2`. -/
theorem fri_terminal_reveal_cex :
    ctx42.FRI_MIN_DEGREE < (List.replicate 3 (0 : Nat)).length / ctx42.EXT_SIZE ∧
    (fri_prove ctx42 cb0 iop0 (List.replicate 3 0)).final_coeffs.length
      ≠ ctx42.FRI_MIN_DEGREE * ctx42.EXT_SIZE := by
  refine ⟨by decide, by decide⟩

/-- Witness for the amended C4 at a concrete context and run. -/
theorem fri_terminal_reveal_witness :
    (fri_prove idCtx cb0 iop0 [0, 0, 0, 0]).final_coeffs.length
      = idCtx.FRI_MIN_DEGREE * idCtx.EXT_SIZE :=
  (fri_terminal_reveal idCtx cb0 iop0 [0, 0, 0, 0] (by decide) (by decide)).2.2.2

lemma friLoopRun_small (ctx : FriCtx) (iop : Iop) (coeffs : List Nat)
    (h : coeffs.length / ctx.EXT_SIZE ≤ ctx.FRI_MIN_DEGREE) :
    friLoopRun ctx iop coeffs = (iop, coeffs, []) := by
  rw [friLoopRun]
  rcases hn : coeffs.length / ctx.EXT_SIZE with _ | n
  · simp only [friLoop]
    rw [if_neg (by omega)]
    rfl
  · simp only [friLoop]
    rw [if_neg (by omega)]
    rfl

/-- C7 (amended): `fri_prove` performs no assertion on entry: a buffer whose
per-extension count is already at or below `FRI_MIN_DEGREE` is silently
tolerated — the folding loop runs zero rounds and the call still emits the
terminal reveal and the query phase, producing a proof transcript. -/
theorem fri_small_input_tolerated (ctx : FriCtx) (f : Iop → Nat → Iop) (iop : Iop)
    (coeffs : List Nat)
    (h : coeffs.length / ctx.EXT_SIZE ≤ ctx.FRI_MIN_DEGREE) :
    (fri_prove ctx f iop coeffs).rounds = [] ∧
    (fri_prove ctx f iop coeffs).final_coeffs
      = ctx.batch_bit_reverse
          (ctx.eltwise_copy_elem (List.replicate coeffs.length 0) coeffs)
          ctx.EXT_SIZE ∧
    (fri_prove ctx f iop coeffs).iop
      = queryPhase ctx f (coeffs.length / ctx.EXT_SIZE * ctx.INV_RATE) [] ctx.QUERIES
          (Iop.commit ctx
            (iop.write_field_elem_slice (fri_prove ctx f iop coeffs).final_coeffs)
            (ctx.hash_raw_pod_slice (fri_prove ctx f iop coeffs).final_coeffs)) := by
  have hsmall := friLoopRun_small ctx iop coeffs h
  refine ⟨?_, ?_, ?_⟩
  · rw [fri_prove_rounds_eq, hsmall]
  · rw [fri_prove_final_eq, hsmall]
  · rw [fri_prove_iop_eq, hsmall]

/-- Counterexample for C7 as stated: with minimum degree 1, a single-element
buffer is at the threshold; `fri_prove` runs zero rounds yet still produces a
proof transcript (three operations are appended for the terminal reveal, the
digest commitment and the query), with no assertion stopping it. -/
theorem fri_small_input_cex :
    (List.replicate 1 (0 : Nat)).length / idCtx.EXT_SIZE ≤ idCtx.FRI_MIN_DEGREE ∧
    (fri_prove idCtx cb0 iop0 (List.replicate 1 0)).rounds = [] ∧
    iop0.trace.length < (fri_prove idCtx cb0 iop0 (List.replicate 1 0)).iop.trace.length := by
  refine ⟨by decide, by decide, by decide⟩

/-- Witness for the amended C7 at a concrete context and run. -/
theorem fri_small_input_tolerated_witness :
    (fri_prove idCtx cb0 iop0 [0]).rounds = [] :=
  (fri_small_input_tolerated idCtx cb0 iop0 [0] (by decide)).1

/-- Witness for C10 at a concrete context and run. -/
theorem fri_prove_fold_terminates_witness :
    (friLoop idCtx (([0, 0] : List Nat).length / idCtx.EXT_SIZE) iop0 [0, 0] []).isSome
        = true ∧
    5 / idCtx.FRI_FOLD < 5 :=
  ⟨(fri_prove_fold_terminates idCtx cb0 iop0 [0, 0]).1,
   (fri_prove_fold_terminates idCtx cb0 iop0 [0, 0]).2.1 5 (by decide)⟩

end Fri
